import Mathlib

/-!
Verification of the pitch-estimation core of PichMatcher (`src/lib/pitchy.js`).

JavaScript numbers are modelled by `JVal`: an exact rational, NaN, or a signed
infinity (floating-point rounding is abstracted to exact rational arithmetic;
NaN and the infinities are kept because the code divides by a divisor that can
be zero and compares the results, and JS comparisons involving NaN are always
false).  Out-of-range array reads yield `undefined` in JS, which behaves like
NaN in arithmetic and comparisons, so `jget` returns `JVal.nan` out of range.
-/

namespace PichMatcher

/-- A JavaScript number value: a finite (exact) rational, NaN, or a signed
infinity (`neg = true` for `-Infinity`). -/
inductive JVal where
  | num (q : ℚ)
  | nan
  | inf (neg : Bool)
deriving DecidableEq, Repr

/-- JS strict less-than: any comparison involving NaN is false. -/
def jlt : JVal → JVal → Bool
  | .nan, _ => false
  | _, .nan => false
  | .num a, .num b => decide (a < b)
  | .num _, .inf neg => !neg
  | .inf neg, .num _ => neg
  | .inf a, .inf b => a && !b

/-- JS strict greater-than. -/
def jgt (a b : JVal) : Bool := jlt b a

/-- JS less-than-or-equal: any comparison involving NaN is false. -/
def jle : JVal → JVal → Bool
  | .nan, _ => false
  | _, .nan => false
  | .num a, .num b => decide (a ≤ b)
  | .num _, .inf neg => !neg
  | .inf neg, .num _ => neg
  | .inf a, .inf b => a || !b

/-- JS addition on `JVal`. -/
def jadd : JVal → JVal → JVal
  | .nan, _ => .nan
  | _, .nan => .nan
  | .num a, .num b => .num (a + b)
  | .num _, .inf s => .inf s
  | .inf s, .num _ => .inf s
  | .inf a, .inf b => if a = b then .inf a else .nan

/-- JS multiplication on `JVal` (`Infinity * 0 = NaN`). -/
def jmul : JVal → JVal → JVal
  | .nan, _ => .nan
  | _, .nan => .nan
  | .num a, .num b => .num (a * b)
  | .num a, .inf s => if a = 0 then .nan else .inf (xor (decide (a < 0)) s)
  | .inf s, .num a => if a = 0 then .nan else .inf (xor s (decide (a < 0)))
  | .inf a, .inf b => .inf (xor a b)

/-- JS division on `JVal` (`0 / 0 = NaN`, `x / 0 = ±Infinity` for `x ≠ 0`,
`x / Infinity = 0`). -/
def jdiv : JVal → JVal → JVal
  | .nan, _ => .nan
  | _, .nan => .nan
  | .num a, .num b =>
      if b = 0 then (if a = 0 then .nan else .inf (decide (a < 0)))
      else .num (a / b)
  | .num _, .inf _ => .num 0
  | .inf s, .num b => .inf (xor s (decide (b < 0)))
  | .inf a, .inf b => if a = b then .nan else .nan

/-- Read element `i` of a JS array of numbers: out of range gives `undefined`,
which behaves like NaN everywhere it is used here. -/
def jget (l : List JVal) (i : ℕ) : JVal := (l.get? i).getD .nan

/-- Read element `i` of the caller's `Float32Array` buffer (finite samples,
modelled as exact rationals): out of range gives `undefined`, i.e. NaN. -/
def jgetQ (l : List ℚ) (i : ℕ) : JVal := ((l.get? i).map JVal.num).getD .nan

/-- The inner loop of `normalizedSquareDifference` for a fixed lag `tau`:
`for (i = 0; i < n; i++) { acf += input[i]*input[i+tau];
 divisorM += input[i]*input[i] + input[i+tau]*input[i+tau]; }`,
returning the pair `(acf, divisorM)` (both initialised to `0`). -/
def acfDivisorLoop (input : List ℚ) (tau n : ℕ) : JVal × JVal :=
  (List.range n).foldl
    (fun s i =>
      (jadd s.1 (jmul (jgetQ input i) (jgetQ input (i + tau))),
       jadd s.2 (jadd (jmul (jgetQ input i) (jgetQ input i))
                      (jmul (jgetQ input (i + tau)) (jgetQ input (i + tau))))))
    (.num 0, .num 0)

/-- `normalizedSquareDifference(input)`: for each `tau` in `[0, inputLength)`,
`nsdf[tau] = 2 * acf / divisorM` with `acf`, `divisorM` from the inner loop
over `i` in `[0, inputLength - tau)`. -/
def normalizedSquareDifference (inputLength : ℕ) (input : List ℚ) : List JVal :=
  (List.range inputLength).map fun tau =>
    let s := acfDivisorLoop input tau (inputLength - tau)
    jdiv (jmul (.num 2) s.1) s.2

/-- The `while (pos < this.inputLength)` loop of `peakPicking`, with state
`(maxPositions, curMaxPos, isPositive)` exactly as in the source.  `pos` is
incremented by exactly one per iteration, so the loop runs for
`inputLength - pos` more iterations; `fuel` is that count, making the
recursion structural. -/
def peakLoop (nsdf : List JVal) :
    ℕ → ℕ → List ℕ → ℕ → Bool → List ℕ
  | 0, _, maxPositions, _, _ => maxPositions
  | fuel + 1, pos, maxPositions, curMaxPos, isPositive =>
    if jgt (jget nsdf pos) (.num 0) && !isPositive then
      peakLoop nsdf fuel (pos + 1) maxPositions pos true
    else if jle (jget nsdf pos) (.num 0) && isPositive then
      peakLoop nsdf fuel (pos + 1)
        (if 0 < curMaxPos then maxPositions ++ [curMaxPos] else maxPositions)
        curMaxPos false
    else if isPositive && jgt (jget nsdf pos) (jget nsdf curMaxPos) then
      peakLoop nsdf fuel (pos + 1) maxPositions pos isPositive
    else
      peakLoop nsdf fuel (pos + 1) maxPositions curMaxPos isPositive

/-- `peakPicking(nsdf)`: scan positions `0 .. inputLength - 1` and collect the
recorded run maxima. -/
def peakPicking (inputLength : ℕ) (nsdf : List JVal) : List ℕ :=
  peakLoop nsdf inputLength 0 [] 0 false

/-- `findBestPeak(maxPositions, nsdf)`: `forEach` over the candidates, keeping
the first one whose `nsdf` value strictly exceeds the running best, which
starts at `-Infinity` (paired with a `null` position). -/
def findBestPeak (maxPositions : List ℕ) (nsdf : List JVal) : Option ℕ :=
  (maxPositions.foldl
    (fun s m => if jgt (jget nsdf m) s.1 then (jget nsdf m, some m) else s)
    ((.inf true : JVal), (none : Option ℕ))).2

/-- The `while (maxPosition + delta < nsdf.length && maxPosition - delta > 0)`
loop of `findTurningPoint`, for increasing `delta`.  On naturals the guard
`maxPosition - delta > 0` is `delta < maxPosition`.  `delta` is incremented by
exactly one per iteration and the guard forces `delta < nsdf.length`, so a
structural `fuel` of `nsdf.length` iterations never cuts the loop short:
when the fuel runs out the guard is false as well, and both exits return
`maxPosition`. -/
def turningPointLoop (nsdf : List JVal) (maxPosition : ℕ) :
    ℕ → ℕ → ℕ
  | 0, _ => maxPosition
  | fuel + 1, delta =>
    if maxPosition + delta < nsdf.length ∧ delta < maxPosition then
      if jgt (jget nsdf (maxPosition - delta)) (jget nsdf (maxPosition + delta)) then
        maxPosition - delta
      else if jlt (jget nsdf (maxPosition - delta)) (jget nsdf (maxPosition + delta)) then
        maxPosition + delta
      else turningPointLoop nsdf maxPosition fuel (delta + 1)
    else maxPosition

/-- `findTurningPoint(maxPosition, nsdf)`: symmetric outward search starting
at `delta = 0`. -/
def findTurningPoint (nsdf : List JVal) (maxPosition : ℕ) : ℕ :=
  turningPointLoop nsdf maxPosition nsdf.length 0

/-- The `PitchDetector` instance state.  Modelled from the spec: the `fft`
field holds an `FFT(inputLength)` object (`src/lib/fft.js` is absent from the
sources; per the spec it is dead scaffolding never invoked by the pitch
computation), so it is modelled by the one datum its constructor receives,
its size. -/
structure PitchDetector where
  inputLength : ℕ
  fft : ℕ
  minVolumeDecibels : ℚ
deriving DecidableEq, Repr

/-- `DEFAULT_MIN_VOLUME_DECIBELS`. -/
def DEFAULT_MIN_VOLUME_DECIBELS : ℚ := -60

/-- `new PitchDetector(inputLength)`. -/
def PitchDetector.new (inputLength : ℕ) : PitchDetector :=
  ⟨inputLength, inputLength, DEFAULT_MIN_VOLUME_DECIBELS⟩

/-- `PitchDetector.forFloat32Array(length)`. -/
def PitchDetector.forFloat32Array (length : ℕ) : PitchDetector :=
  PitchDetector.new length

/-- `findPitch(input, sampleRate)`.  `Math.round(turningPointX)` is the
identity here since `turningPointX` is an integer lag. -/
def findPitch (d : PitchDetector) (input : List ℚ) (sampleRate : ℚ) :
    JVal × JVal :=
  let nsdf := normalizedSquareDifference d.inputLength input
  let maxPositions := peakPicking d.inputLength nsdf
  match findBestPeak maxPositions nsdf with
  | none => (.num 0, .num 0)
  | some maxPosition =>
      let turningPointX := findTurningPoint nsdf maxPosition
      (jdiv (.num sampleRate) (.num (turningPointX : ℚ)), jget nsdf turningPointX)

/-! ### Reference values from the specification

`acfRef` and `divisorRef` transcribe the claimed formulas
`acf(τ) = Σ_{i=0}^{n-1} samples[i]·samples[i+τ]` and
`divisor(τ) = Σ_{i=0}^{n-1} (samples[i]² + samples[i+τ]²)`; they are compared
with the loop the code actually runs. -/

/-- Sample `i` of the buffer (as a rational); only used at in-range indices. -/
def sampleAt (l : List ℚ) (i : ℕ) : ℚ := l.getD i 0

/-- The autocorrelation sum of the claim, over `i ∈ [0, n)`. -/
def acfRef (l : List ℚ) (tau n : ℕ) : ℚ :=
  ∑ i ∈ Finset.range n, sampleAt l i * sampleAt l (i + tau)

/-- The divisor sum of the claim, over `i ∈ [0, n)`. -/
def divisorRef (l : List ℚ) (tau n : ℕ) : ℚ :=
  ∑ i ∈ Finset.range n,
    (sampleAt l i * sampleAt l i + sampleAt l (i + tau) * sampleAt l (i + tau))

/-! ### Basic facts about the JS value model -/

theorem jgetQ_of_lt {l : List ℚ} {i : ℕ} (h : i < l.length) :
    jgetQ l i = JVal.num (sampleAt l i) := by
  simp [jgetQ, sampleAt, List.getD_eq_getElem?_getD, List.get?_eq_getElem?,
    List.getElem?_eq_getElem h]

theorem jgetQ_of_ge {l : List ℚ} {i : ℕ} (h : l.length ≤ i) :
    jgetQ l i = JVal.nan := by
  simp [jgetQ, List.get?_eq_getElem?, List.getElem?_eq_none h]

theorem jget_map_num_of_lt {l : List ℚ} {i : ℕ} (h : i < l.length) :
    jget (l.map JVal.num) i = JVal.num (sampleAt l i) := by
  simp [jget, sampleAt, List.getD_eq_getElem?_getD, List.get?_eq_getElem?,
    List.getElem?_map, List.getElem?_eq_getElem h]

theorem jget_map_num_of_ge {l : List ℚ} {i : ℕ} (h : l.length ≤ i) :
    jget (l.map JVal.num) i = JVal.nan := by
  simp [jget, List.get?_eq_getElem?, List.getElem?_map, List.getElem?_eq_none h]

theorem jadd_nan_right (a : JVal) : jadd a JVal.nan = JVal.nan := by
  cases a <;> rfl

theorem jdiv_nan_right (a : JVal) : jdiv a JVal.nan = JVal.nan := by
  cases a <;> rfl

theorem jgt_num_num (a b : ℚ) : jgt (JVal.num a) (JVal.num b) = decide (b < a) := rfl

theorem jle_num_num (a b : ℚ) : jle (JVal.num a) (JVal.num b) = decide (a ≤ b) := rfl

/-- `jgt` never relates NaN to anything. -/
theorem ne_nan_of_jgt {a b : JVal} (h : jgt a b = true) : a ≠ JVal.nan ∧ b ≠ JVal.nan := by
  cases a <;> cases b <;> simp_all [jgt, jlt]

/-- On non-NaN values `jgt` is transitive. -/
theorem jgt_trans {a b c : JVal} (hab : jgt a b = true) (hbc : jgt b c = true) :
    jgt a c = true := by
  cases a <;> cases b <;> cases c <;> simp_all [jgt, jlt]
  exact lt_trans ‹_› ‹_›

theorem jget_of_ge {l : List JVal} {i : ℕ} (h : l.length ≤ i) :
    jget l i = JVal.nan := by
  simp [jget, List.get?_eq_getElem?, List.getElem?_eq_none h]

/-! ### The inner loop of `normalizedSquareDifference` -/

theorem acfDivisorLoop_succ (l : List ℚ) (tau n : ℕ) :
    acfDivisorLoop l tau (n + 1) =
      (jadd (acfDivisorLoop l tau n).1 (jmul (jgetQ l n) (jgetQ l (n + tau))),
       jadd (acfDivisorLoop l tau n).2
         (jadd (jmul (jgetQ l n) (jgetQ l n))
               (jmul (jgetQ l (n + tau)) (jgetQ l (n + tau))))) := by
  simp [acfDivisorLoop, List.range_succ]

/-- When every index the loop touches is in range, the loop computes exactly
the two reference sums. -/
theorem acfDivisorLoop_spec (l : List ℚ) (tau : ℕ) :
    ∀ n, (∀ i, i < n → i + tau < l.length) →
      acfDivisorLoop l tau n =
        (JVal.num (acfRef l tau n), JVal.num (divisorRef l tau n)) := by
  intro n
  induction n with
  | zero => intro _; simp [acfDivisorLoop, acfRef, divisorRef]
  | succ n ih =>
    intro h
    have hn : n + tau < l.length := h n (Nat.lt_succ_self n)
    have hn' : n < l.length := lt_of_le_of_lt (Nat.le_add_right n tau) hn
    rw [acfDivisorLoop_succ, ih (fun i hi => h i (Nat.lt_succ_of_lt hi)),
      jgetQ_of_lt hn, jgetQ_of_lt hn']
    simp [jadd, jmul, acfRef, divisorRef, Finset.sum_range_succ]

/-- When some index the loop touches is out of range, `undefined` (NaN) enters
the divisor accumulator and never leaves it. -/
theorem acfDivisorLoop_nan (l : List ℚ) (tau : ℕ) :
    ∀ n, ¬ (∀ i, i < n → i + tau < l.length) →
      (acfDivisorLoop l tau n).2 = JVal.nan := by
  intro n
  induction n with
  | zero => intro h; exact absurd (fun i hi => absurd hi (Nat.not_lt_zero i)) h
  | succ n ih =>
    intro h
    by_cases hall : ∀ i, i < n → i + tau < l.length
    · have hn : ¬ n + tau < l.length := by
        intro hn
        exact h (fun i hi => by
          rcases Nat.lt_succ_iff_lt_or_eq.1 hi with hi' | rfl
          · exact hall i hi'
          · exact hn)
      rw [acfDivisorLoop_succ, jgetQ_of_ge (Nat.le_of_not_lt hn)]
      simp [jmul, jadd_nan_right]
    · rw [acfDivisorLoop_succ, ih hall]
      simp [jadd]

theorem divisorRef_nonneg (l : List ℚ) (tau n : ℕ) : 0 ≤ divisorRef l tau n :=
  Finset.sum_nonneg fun i _ =>
    add_nonneg (mul_self_nonneg _) (mul_self_nonneg _)

theorem acfRef_eq_zero_of_divisorRef_eq_zero {l : List ℚ} {tau n : ℕ}
    (h : divisorRef l tau n = 0) : acfRef l tau n = 0 := by
  have hterm : ∀ i ∈ Finset.range n,
      sampleAt l i * sampleAt l i + sampleAt l (i + tau) * sampleAt l (i + tau) = 0 :=
    (Finset.sum_eq_zero_iff_of_nonneg fun i _ =>
      add_nonneg (mul_self_nonneg _) (mul_self_nonneg _)).1 h
  refine Finset.sum_eq_zero fun i hi => ?_
  have h0 := hterm i hi
  have hsq : sampleAt l i * sampleAt l i = 0 := by
    linarith [mul_self_nonneg (sampleAt l i), mul_self_nonneg (sampleAt l (i + tau))]
  rw [mul_self_eq_zero.1 hsq, zero_mul]

/-- `divisor - 2·acf = Σ (a_i - a_{i+τ})² ≥ 0`. -/
theorem two_acfRef_le_divisorRef (l : List ℚ) (tau n : ℕ) :
    2 * acfRef l tau n ≤ divisorRef l tau n := by
  have key : divisorRef l tau n - 2 * acfRef l tau n =
      ∑ i ∈ Finset.range n, (sampleAt l i - sampleAt l (i + tau)) ^ 2 := by
    rw [divisorRef, acfRef, Finset.mul_sum, ← Finset.sum_sub_distrib]
    exact Finset.sum_congr rfl fun i _ => by ring
  have hs : 0 ≤ ∑ i ∈ Finset.range n, (sampleAt l i - sampleAt l (i + tau)) ^ 2 :=
    Finset.sum_nonneg fun i _ => sq_nonneg _
  linarith

/-- `divisor + 2·acf = Σ (a_i + a_{i+τ})² ≥ 0`. -/
theorem neg_divisorRef_le_two_acfRef (l : List ℚ) (tau n : ℕ) :
    -divisorRef l tau n ≤ 2 * acfRef l tau n := by
  have key : divisorRef l tau n + 2 * acfRef l tau n =
      ∑ i ∈ Finset.range n, (sampleAt l i + sampleAt l (i + tau)) ^ 2 := by
    rw [divisorRef, acfRef, Finset.mul_sum, ← Finset.sum_add_distrib]
    exact Finset.sum_congr rfl fun i _ => by ring
  have hs : 0 ≤ ∑ i ∈ Finset.range n, (sampleAt l i + sampleAt l (i + tau)) ^ 2 :=
    Finset.sum_nonneg fun i _ => sq_nonneg _
  linarith

/-! ### The entries of the NSDF array -/

theorem nsdf_length (inputLength : ℕ) (input : List ℚ) :
    (normalizedSquareDifference inputLength input).length = inputLength := by
  simp [normalizedSquareDifference]

theorem jget_nsdf_of_lt {inputLength tau : ℕ} (input : List ℚ)
    (h : tau < inputLength) :
    jget (normalizedSquareDifference inputLength input) tau =
      jdiv (jmul (JVal.num 2) (acfDivisorLoop input tau (inputLength - tau)).1)
           (acfDivisorLoop input tau (inputLength - tau)).2 := by
  simp [normalizedSquareDifference, jget, List.get?_eq_getElem?,
    List.getElem?_map, List.getElem?_range h]

theorem jget_nsdf_of_ge {inputLength tau : ℕ} (input : List ℚ)
    (h : inputLength ≤ tau) :
    jget (normalizedSquareDifference inputLength input) tau = JVal.nan :=
  jget_of_ge (by rw [nsdf_length]; exact h)

/-- For a buffer of the constructed length, entry `τ` of the NSDF array is
`2·acf(τ)/divisor(τ)` when the divisor is positive and NaN when it is zero
(the code divides unconditionally, and `0 / 0` is NaN in JS). -/
theorem nsdf_entry_formula (input : List ℚ) {inputLength tau : ℕ}
    (hlen : input.length = inputLength) (htau : tau < inputLength) :
    jget (normalizedSquareDifference inputLength input) tau =
      if 0 < divisorRef input tau (inputLength - tau)
      then JVal.num (2 * acfRef input tau (inputLength - tau) /
                     divisorRef input tau (inputLength - tau))
      else JVal.nan := by
  have hin : ∀ i, i < inputLength - tau → i + tau < input.length := by omega
  rw [jget_nsdf_of_lt input htau, acfDivisorLoop_spec input tau _ hin]
  by_cases hd : divisorRef input tau (inputLength - tau) = 0
  · rw [acfRef_eq_zero_of_divisorRef_eq_zero hd, hd]
    simp [jmul, jdiv]
  · have hpos : 0 < divisorRef input tau (inputLength - tau) :=
      lt_of_le_of_ne (divisorRef_nonneg _ _ _) (Ne.symm hd)
    simp [jmul, jdiv, hd, hpos]

/-- Every entry of the NSDF array is NaN or a rational in `[-1, 1]`
(never an infinity), for a buffer of any length. -/
theorem nsdf_entry_num_or_nan (input : List ℚ) (inputLength tau : ℕ) :
    jget (normalizedSquareDifference inputLength input) tau = JVal.nan ∨
      ∃ q, jget (normalizedSquareDifference inputLength input) tau = JVal.num q ∧
        -1 ≤ q ∧ q ≤ 1 := by
  rcases lt_or_ge tau inputLength with htau | htau
  · by_cases hin : ∀ i, i < inputLength - tau → i + tau < input.length
    · rw [jget_nsdf_of_lt input htau, acfDivisorLoop_spec input tau _ hin]
      by_cases hd : divisorRef input tau (inputLength - tau) = 0
      · left
        rw [acfRef_eq_zero_of_divisorRef_eq_zero hd, hd]
        simp [jmul, jdiv]
      · right
        have hpos : 0 < divisorRef input tau (inputLength - tau) :=
          lt_of_le_of_ne (divisorRef_nonneg _ _ _) (Ne.symm hd)
        refine ⟨2 * acfRef input tau (inputLength - tau) /
                 divisorRef input tau (inputLength - tau),
          by simp [jmul, jdiv, hd], ?_, ?_⟩
        · rw [le_div_iff₀ hpos]
          have := neg_divisorRef_le_two_acfRef input tau (inputLength - tau)
          linarith
        · rw [div_le_one hpos]
          exact two_acfRef_le_divisorRef input tau (inputLength - tau)
    · left
      rw [jget_nsdf_of_lt input htau, acfDivisorLoop_nan input tau _ hin,
        jdiv_nan_right]
  · left
    exact jget_nsdf_of_ge input htau

theorem nsdf_ne_inf (input : List ℚ) (inputLength tau : ℕ) (s : Bool) :
    jget (normalizedSquareDifference inputLength input) tau ≠ JVal.inf s := by
  rcases nsdf_entry_num_or_nan input inputLength tau with h | ⟨q, h, _⟩ <;>
    simp [h]

theorem nsdf_num_bound {input : List ℚ} {inputLength tau : ℕ} {q : ℚ}
    (h : jget (normalizedSquareDifference inputLength input) tau = JVal.num q) :
    -1 ≤ q ∧ q ≤ 1 := by
  rcases nsdf_entry_num_or_nan input inputLength tau with h' | ⟨q', h', hq'⟩
  · rw [h] at h'; exact absurd h' (by simp)
  · rw [h] at h'
    obtain rfl : q = q' := by injection h'
    exact hq'

/-- C1 (amended): for every buffer of the constructed length `N` and every
lag `τ < N`, the similarity value equals `2·acf(τ)/divisor(τ)` when
`divisor(τ) > 0`, where `acf` and `divisor` are the claimed sums over
`i ∈ [0, N−τ)`; the divisor is never negative, and when it is zero the value
is NaN (JS `0 / 0`), not the claimed 0. -/
theorem C1_nsdf_formula (input : List ℚ) (N tau : ℕ)
    (hlen : input.length = N) (htau : tau < N) :
    0 ≤ divisorRef input tau (N - tau) ∧
    jget (normalizedSquareDifference N input) tau =
      (if 0 < divisorRef input tau (N - tau)
       then JVal.num (2 * acfRef input tau (N - tau) / divisorRef input tau (N - tau))
       else JVal.nan) :=
  ⟨divisorRef_nonneg _ _ _, nsdf_entry_formula input hlen htau⟩

/-- Witness for `C1_nsdf_formula` at `input = [1, 2]`, `N = 2`, `τ = 1`. -/
theorem C1_nsdf_formula_witness :
    (([(1 : ℚ), 2].length = 2) ∧ (1 : ℕ) < 2) ∧
    (0 ≤ divisorRef [(1 : ℚ), 2] 1 (2 - 1) ∧
     jget (normalizedSquareDifference 2 [(1 : ℚ), 2]) 1 =
       (if 0 < divisorRef [(1 : ℚ), 2] 1 (2 - 1)
        then JVal.num (2 * acfRef [(1 : ℚ), 2] 1 (2 - 1) /
                       divisorRef [(1 : ℚ), 2] 1 (2 - 1))
        else JVal.nan)) :=
  ⟨⟨by decide, by decide⟩, C1_nsdf_formula [1, 2] 2 1 (by decide) (by decide)⟩

/-- C1 counterexample: on the all-zero one-sample buffer, `divisor(0) = 0` is
not positive, and the computed `nsdf[0]` is NaN — not `0` as the claim
states. -/
theorem C1_counterexample :
    divisorRef [(0 : ℚ)] 0 1 = 0 ∧
    jget (normalizedSquareDifference 1 [(0 : ℚ)]) 0 = JVal.nan ∧
    JVal.nan ≠ JVal.num 0 := by
  refine ⟨by norm_num [divisorRef, sampleAt], ?_, by decide⟩
  norm_num [normalizedSquareDifference, acfDivisorLoop, List.range_succ,
    jget, jgetQ, jdiv, jmul, jadd]

/-- C7: for a buffer of the constructed length that is not entirely zero, the
similarity at lag 0 is exactly 1, and `divisor(0) = 2·acf(0)`. -/
theorem C7_nsdf_at_lag_zero (input : List ℚ) (N : ℕ)
    (hlen : input.length = N) (hnz : ∃ i, i < N ∧ sampleAt input i ≠ 0) :
    jget (normalizedSquareDifference N input) 0 = JVal.num 1 ∧
    divisorRef input 0 (N - 0) = 2 * acfRef input 0 (N - 0) := by
  obtain ⟨i, hi, hne⟩ := hnz
  have htau : 0 < N := Nat.pos_of_ne_zero (by omega)
  have hdd : divisorRef input 0 (N - 0) = 2 * acfRef input 0 (N - 0) := by
    rw [divisorRef, acfRef, Finset.mul_sum]
    exact Finset.sum_congr rfl fun j _ => by ring
  have hpos : 0 < divisorRef input 0 (N - 0) := by
    refine Finset.sum_pos' (fun j _ => add_nonneg (mul_self_nonneg _) (mul_self_nonneg _))
      ⟨i, Finset.mem_range.2 (by omega), ?_⟩
    have : 0 < sampleAt input i * sampleAt input i :=
      mul_self_pos.2 hne
    nlinarith [mul_self_nonneg (sampleAt input (i + 0))]
  refine ⟨?_, hdd⟩
  rw [nsdf_entry_formula input hlen htau, if_pos hpos, hdd]
  have hacf : 0 < 2 * acfRef input 0 (N - 0) := by rw [← hdd]; exact hpos
  rw [div_self (ne_of_gt hacf)]

/-- Witness for `C7_nsdf_at_lag_zero` at `input = [2]`, `N = 1`. -/
theorem C7_nsdf_at_lag_zero_witness :
    (([(2 : ℚ)].length = 1) ∧ (∃ i, i < 1 ∧ sampleAt [(2 : ℚ)] i ≠ 0)) ∧
    (jget (normalizedSquareDifference 1 [(2 : ℚ)]) 0 = JVal.num 1 ∧
     divisorRef [(2 : ℚ)] 0 (1 - 0) = 2 * acfRef [(2 : ℚ)] 0 (1 - 0)) :=
  ⟨⟨by decide, ⟨0, by decide, by norm_num [sampleAt]⟩⟩,
   C7_nsdf_at_lag_zero [2] 1 (by decide) ⟨0, by decide, by norm_num [sampleAt]⟩⟩

/-! ### Degenerate runs of the pipeline -/

/-- On an all-NaN similarity array, the scan state never changes, so no
candidate is ever recorded. -/
theorem peakLoop_of_nan {nsdf : List JVal} (hnan : ∀ p, jget nsdf p = JVal.nan) :
    ∀ fuel pos acc cur, peakLoop nsdf fuel pos acc cur false = acc := by
  intro fuel
  induction fuel with
  | zero => intro pos acc cur; rfl
  | succ fuel ih =>
    intro pos acc cur
    have h1 : jgt (jget nsdf pos) (.num 0) = false := by rw [hnan pos]; rfl
    have h2 : jle (jget nsdf pos) (.num 0) = false := by rw [hnan pos]; rfl
    simp only [peakLoop, h1, h2, Bool.false_and, Bool.and_false, Bool.false_eq_true,
      if_false]
    exact ih (pos + 1) acc cur

theorem peakPicking_of_nan {inputLength : ℕ} {nsdf : List JVal}
    (hnan : ∀ p, jget nsdf p = JVal.nan) : peakPicking inputLength nsdf = [] :=
  peakLoop_of_nan hnan inputLength 0 [] 0

/-- With no candidates, `findBestPeak` returns `null` and `findPitch` returns
`(0, 0)`. -/
theorem findPitch_of_empty {d : PitchDetector} {input : List ℚ} {sampleRate : ℚ}
    (h : peakPicking d.inputLength (normalizedSquareDifference d.inputLength input) = []) :
    findPitch d input sampleRate = (JVal.num 0, JVal.num 0) := by
  simp [findPitch, h, findBestPeak]

theorem sampleAt_replicate_zero (N i : ℕ) : sampleAt (List.replicate N (0 : ℚ)) i = 0 := by
  rcases lt_or_ge i N with h | h
  · simp [sampleAt, List.getD_eq_getElem?_getD, List.getElem?_replicate, h]
  · simp [sampleAt, List.getD_eq_getElem?_getD,
      List.getElem?_eq_none (by simpa using h : (List.replicate N (0:ℚ)).length ≤ i)]

/-- On the all-zero buffer every divisor is zero, so every NSDF entry is NaN. -/
theorem nsdf_replicate_zero_nan (N : ℕ) :
    ∀ tau, jget (normalizedSquareDifference N (List.replicate N (0 : ℚ))) tau = JVal.nan := by
  intro tau
  rcases lt_or_ge tau N with htau | htau
  · rw [nsdf_entry_formula (List.replicate N 0) (List.length_replicate N 0) htau]
    have hz : divisorRef (List.replicate N (0 : ℚ)) tau (N - tau) = 0 :=
      Finset.sum_eq_zero fun i _ => by
        simp [sampleAt_replicate_zero]
    rw [hz]
    simp
  · exact jget_nsdf_of_ge _ htau

/-- C2: whenever peak picking yields no candidate — in particular on the
all-zero buffer of the constructed length — `findPitch` returns exactly
`(0, 0)` (the code is total: there is no error path). -/
theorem C2_empty_candidates_zero :
    (∀ (d : PitchDetector) (input : List ℚ) (sampleRate : ℚ),
      peakPicking d.inputLength (normalizedSquareDifference d.inputLength input) = [] →
      findPitch d input sampleRate = (JVal.num 0, JVal.num 0)) ∧
    (∀ (N : ℕ) (sampleRate : ℚ),
      findPitch (PitchDetector.new N) (List.replicate N (0 : ℚ)) sampleRate =
        (JVal.num 0, JVal.num 0)) := by
  refine ⟨fun d input sampleRate h => findPitch_of_empty h, fun N sampleRate => ?_⟩
  exact findPitch_of_empty (peakPicking_of_nan (nsdf_replicate_zero_nan N))

/-- Witness for `C2_empty_candidates_zero`: a single positive sample produces
one never-terminated positive run, hence no candidate, so `(0, 0)`; and the
all-zero two-sample buffer also returns `(0, 0)`. -/
theorem C2_empty_candidates_zero_witness :
    (peakPicking (PitchDetector.new 1).inputLength
        (normalizedSquareDifference (PitchDetector.new 1).inputLength [(5 : ℚ)]) = [] ∧
     findPitch (PitchDetector.new 1) [(5 : ℚ)] 44100 = (JVal.num 0, JVal.num 0)) ∧
    findPitch (PitchDetector.new 2) (List.replicate 2 (0 : ℚ)) 3 =
      (JVal.num 0, JVal.num 0) := by
  have hpk : peakPicking (PitchDetector.new 1).inputLength
      (normalizedSquareDifference (PitchDetector.new 1).inputLength [(5 : ℚ)]) = [] := by
    norm_num [PitchDetector.new, peakPicking, peakLoop, normalizedSquareDifference,
      acfDivisorLoop, List.range_succ, jget, jgetQ, jdiv, jmul, jadd, jgt, jle, jlt]
  exact ⟨⟨hpk, C2_empty_candidates_zero.1 _ _ _ hpk⟩, C2_empty_candidates_zero.2 2 3⟩

/-! ### Input validation (there is none) -/

/-- A buffer shorter than the constructed length puts an out-of-range read
(NaN) into every divisor, so every NSDF entry is NaN. -/
theorem nsdf_short_input_nan {d : ℕ} (input : List ℚ) (hshort : input.length < d) :
    ∀ tau, jget (normalizedSquareDifference d input) tau = JVal.nan := by
  intro tau
  rcases lt_or_ge tau d with htau | htau
  · rw [jget_nsdf_of_lt input htau,
      acfDivisorLoop_nan input tau (d - tau) (by
        intro hall
        have := hall (d - tau - 1) (by omega)
        omega),
      jdiv_nan_right]
  · exact jget_nsdf_of_ge _ htau

/-- C3 (amended): the code performs no input validation and raises nothing.
A too-short buffer yields NaN similarity values throughout, hence no
candidates and the result `(0, 0)`; a too-long buffer behaves exactly as its
prefix of the constructed length; the sample rate is never checked (the
result is defined for any rational sample rate, as `findPitch` is total by
definition). -/
theorem C3_no_validation :
    (∀ (d : PitchDetector) (input : List ℚ) (sampleRate : ℚ),
      input.length < d.inputLength →
      findPitch d input sampleRate = (JVal.num 0, JVal.num 0)) ∧
    (∀ (d : PitchDetector) (input extra : List ℚ) (sampleRate : ℚ),
      input.length = d.inputLength →
      findPitch d (input ++ extra) sampleRate = findPitch d input sampleRate) := by
  constructor
  · intro d input sampleRate hshort
    exact findPitch_of_empty (peakPicking_of_nan (nsdf_short_input_nan input hshort))
  · intro d input extra sampleRate hlen
    have hq : ∀ j, j < d.inputLength → jgetQ (input ++ extra) j = jgetQ input j := by
      intro j hj
      have hj' : j < input.length := hlen ▸ hj
      simp [jgetQ, List.get?_eq_getElem?, List.getElem?_append_left hj']
    have hns : normalizedSquareDifference d.inputLength (input ++ extra) =
        normalizedSquareDifference d.inputLength input := by
      unfold normalizedSquareDifference
      refine List.map_congr_left fun tau htau => ?_
      have htau' : tau < d.inputLength := List.mem_range.1 htau
      have hloop : acfDivisorLoop (input ++ extra) tau (d.inputLength - tau) =
          acfDivisorLoop input tau (d.inputLength - tau) := by
        unfold acfDivisorLoop
        refine List.foldl_ext _ _ _ fun s i hi => ?_
        have hi' : i < d.inputLength - tau := List.mem_range.1 hi
        rw [hq i (by omega), hq (i + tau) (by omega)]
      rw [hloop]
    simp only [findPitch, hns]

/-- C3 counterexample: calling `findPitch` with a buffer of the wrong length
(1 instead of 2) and a negative sample rate returns a value, `(0, 0)` — it
does not raise `InvalidInput`; and constructing with length 0 succeeds — it
does not raise `InvalidLength`. -/
theorem C3_counterexample :
    findPitch (PitchDetector.new 2) [(1 : ℚ)] (-5) = (JVal.num 0, JVal.num 0) ∧
    (PitchDetector.new 0).inputLength = 0 := by
  constructor
  · norm_num [findPitch, PitchDetector.new, peakPicking, peakLoop, findBestPeak,
      normalizedSquareDifference, acfDivisorLoop, List.range_succ,
      jget, jgetQ, jdiv, jmul, jadd, jgt, jle, jlt]
  · rfl

/-- Witness for `C3_no_validation`: a short buffer and an extended buffer. -/
theorem C3_no_validation_witness :
    (([(1 : ℚ)].length < (PitchDetector.new 2).inputLength) ∧
     findPitch (PitchDetector.new 2) [(1 : ℚ)] 5 = (JVal.num 0, JVal.num 0)) ∧
    (([(1 : ℚ), 2].length = (PitchDetector.new 2).inputLength) ∧
     findPitch (PitchDetector.new 2) ([(1 : ℚ), 2] ++ [7]) 3 =
       findPitch (PitchDetector.new 2) [(1 : ℚ), 2] 3) :=
  ⟨⟨by decide, C3_no_validation.1 _ _ _ (by decide)⟩,
   ⟨by decide, C3_no_validation.2 _ _ _ _ (by decide)⟩⟩

/-- C9: the result of `findPitch` depends only on `inputLength`, the samples
and the sample rate — not on `minVolumeDecibels` or the (unused) `fft`
instance field; in this pure model the call also mutates nothing. -/
theorem C9_findPitch_pure (d₁ d₂ : PitchDetector) (input : List ℚ)
    (sampleRate : ℚ) (h : d₁.inputLength = d₂.inputLength) :
    findPitch d₁ input sampleRate = findPitch d₂ input sampleRate := by
  simp only [findPitch, h]

/-- Witness for `C9_findPitch_pure`: two detectors of length 2 that differ in
`fft` and `minVolumeDecibels`. -/
theorem C9_findPitch_pure_witness :
    (PitchDetector.mk 2 2 (-60)).inputLength = (PitchDetector.mk 2 99 0).inputLength ∧
    findPitch (PitchDetector.mk 2 2 (-60)) [(1 : ℚ), 0] 3 =
      findPitch (PitchDetector.mk 2 99 0) [(1 : ℚ), 0] 3 :=
  ⟨rfl, C9_findPitch_pure _ _ _ _ rfl⟩

/-! ### Candidates recorded by the scan -/

/-- Every candidate the scan records is a positive lag below `N` whose NSDF
value is strictly positive (in the JS comparison sense). -/
theorem peakLoop_mem_prop {nsdf : List JVal} {N : ℕ} :
    ∀ fuel pos acc cur isPos, pos + fuel = N →
      (∀ m ∈ acc, 0 < m ∧ m < N ∧ jgt (jget nsdf m) (JVal.num 0) = true) →
      (isPos = true → cur < N ∧ jgt (jget nsdf cur) (JVal.num 0) = true) →
      ∀ m ∈ peakLoop nsdf fuel pos acc cur isPos,
        0 < m ∧ m < N ∧ jgt (jget nsdf m) (JVal.num 0) = true := by
  intro fuel
  induction fuel with
  | zero => intro pos acc cur isPos _ hacc _ m hm; exact hacc m hm
  | succ fuel ih =>
    intro pos acc cur isPos hN hacc hcur m hm
    simp only [peakLoop] at hm
    split_ifs at hm with h1 h2 hcpos h3
    · simp only [Bool.and_eq_true] at h1
      refine ih (pos + 1) acc pos true (by omega) hacc ?_ m hm
      intro _
      exact ⟨by omega, h1.1⟩
    · simp only [Bool.and_eq_true] at h2
      refine ih (pos + 1) _ cur false (by omega) ?_ (by simp) m hm
      intro m' hm'
      rcases List.mem_append.1 hm' with h | h
      · exact hacc m' h
      · obtain rfl : m' = cur := List.mem_singleton.1 h
        have := hcur h2.2
        exact ⟨hcpos, this.1, this.2⟩
    · simp only [Bool.and_eq_true] at h2
      exact ih (pos + 1) acc cur false (by omega) hacc (by simp) m hm
    · simp only [Bool.and_eq_true] at h3
      refine ih (pos + 1) acc pos isPos (by omega) hacc ?_ m hm
      intro _
      exact ⟨by omega, jgt_trans h3.2 (hcur h3.1).2⟩
    · exact ih (pos + 1) acc cur isPos (by omega) hacc hcur m hm

theorem peakPicking_mem {nsdf : List JVal} {N : ℕ} :
    ∀ m ∈ peakPicking N nsdf,
      0 < m ∧ m < N ∧ jgt (jget nsdf m) (JVal.num 0) = true :=
  peakLoop_mem_prop N 0 [] 0 false (Nat.zero_add N) (by simp) (by simp)

/-! ### `findBestPeak` as a fold -/

/-- One step of the `findBestPeak` fold. -/
def bestStep (nsdf : List JVal) (s : JVal × Option ℕ) (m : ℕ) : JVal × Option ℕ :=
  if jgt (jget nsdf m) s.1 then (jget nsdf m, some m) else s

theorem findBestPeak_eq_fold (maxPositions : List ℕ) (nsdf : List JVal) :
    findBestPeak maxPositions nsdf =
      (maxPositions.foldl (bestStep nsdf) ((.inf true : JVal), (none : Option ℕ))).2 :=
  rfl

/-- The fold either keeps the initial position or lands on a list member. -/
theorem bestFold_mem {nsdf : List JVal} :
    ∀ (ps : List ℕ) (s : JVal × Option ℕ),
      (ps.foldl (bestStep nsdf) s).2 = s.2 ∨
        ∃ m ∈ ps, (ps.foldl (bestStep nsdf) s).2 = some m := by
  intro ps
  induction ps with
  | nil => intro s; exact Or.inl rfl
  | cons p ps ih =>
    intro s
    rcases ih (bestStep nsdf s p) with h | ⟨m, hm, h⟩
    · rw [List.foldl_cons, h]
      unfold bestStep
      split_ifs with hgt
      · exact Or.inr ⟨p, List.mem_cons_self p ps, rfl⟩
      · exact Or.inl rfl
    · exact Or.inr ⟨m, List.mem_cons_of_mem p hm, by rw [List.foldl_cons, h]⟩

/-- Once the fold state holds a position, it always holds one. -/
theorem bestFold_isSome {nsdf : List JVal} :
    ∀ (ps : List ℕ) (b : JVal) (m : ℕ),
      (ps.foldl (bestStep nsdf) (b, some m)).2 ≠ none := by
  intro ps
  induction ps with
  | nil => intro b m h; exact Option.some_ne_none m h
  | cons p ps ih =>
    intro b m
    rw [List.foldl_cons]
    unfold bestStep
    split_ifs with hgt
    · exact ih _ p
    · exact ih b m

theorem findBestPeak_some_mem {nsdf : List JVal} {ps : List ℕ} {m : ℕ}
    (h : findBestPeak ps nsdf = some m) : m ∈ ps := by
  rw [findBestPeak_eq_fold] at h
  rcases bestFold_mem ps ((.inf true : JVal), (none : Option ℕ)) with h' | ⟨m', hm', h'⟩
  · rw [h] at h'; exact absurd h' (by simp)
  · rw [h] at h'
    obtain rfl : m = m' := by injection h'
    exact hm'

/-- A nonempty candidate list whose values are all strictly positive always
produces a best peak. -/
theorem findBestPeak_of_ne_nil {nsdf : List JVal} {ps : List ℕ} (hne : ps ≠ [])
    (hpos : ∀ m ∈ ps, jgt (jget nsdf m) (JVal.num 0) = true) :
    ∃ m, findBestPeak ps nsdf = some m ∧ m ∈ ps := by
  obtain ⟨p, ps', rfl⟩ := List.exists_cons_of_ne_nil hne
  have hstep : bestStep nsdf ((.inf true : JVal), (none : Option ℕ)) p =
      (jget nsdf p, some p) := by
    unfold bestStep
    have hninf : jgt (JVal.num 0) (JVal.inf true) = true := rfl
    rw [if_pos (jgt_trans (hpos p (List.mem_cons_self p ps')) hninf)]
  have hns : findBestPeak (p :: ps') nsdf ≠ none := by
    rw [findBestPeak_eq_fold, List.foldl_cons, hstep]
    exact bestFold_isSome ps' _ p
  obtain ⟨m, hm⟩ := Option.ne_none_iff_exists'.1 hns
  exact ⟨m, hm, findBestPeak_some_mem hm⟩

/-! ### The turning-point search -/

/-- The loop's result never leaves `[1, nsdf.length)` when started from a lag
in that interval. -/
theorem turningPointLoop_bounds {nsdf : List JVal} {L : ℕ}
    (hL1 : 1 ≤ L) (hL2 : L < nsdf.length) :
    ∀ fuel delta, 1 ≤ turningPointLoop nsdf L fuel delta ∧
      turningPointLoop nsdf L fuel delta < nsdf.length := by
  intro fuel
  induction fuel with
  | zero => intro delta; exact ⟨hL1, hL2⟩
  | succ fuel ih =>
    intro delta
    simp only [turningPointLoop]
    split_ifs with hguard hgt hlt
    · omega
    · omega
    · exact ih (delta + 1)
    · exact ⟨hL1, hL2⟩

/-- The loop returns the start lag or a lag it compared favourably, whose
NSDF value is then not NaN. -/
theorem turningPointLoop_value {nsdf : List JVal} {L : ℕ} :
    ∀ fuel delta, turningPointLoop nsdf L fuel delta = L ∨
      jget nsdf (turningPointLoop nsdf L fuel delta) ≠ JVal.nan := by
  intro fuel
  induction fuel with
  | zero => intro delta; exact Or.inl rfl
  | succ fuel ih =>
    intro delta
    simp only [turningPointLoop]
    split_ifs with hguard hgt hlt
    · exact Or.inr (ne_nan_of_jgt hgt).1
    · exact Or.inr (ne_nan_of_jgt (show jgt (jget nsdf (L + delta)) (jget nsdf (L - delta)) = true from hlt)).1
    · exact ih (delta + 1)
    · exact Or.inl rfl

/-- C6: whenever the candidate list is non-empty, the refined lag lies in
`[1, N−1]`, so the frequency division has a positive integer divisor, and the
returned pair is exactly `(sampleRate / refinedLag, nsdf[refinedLag])`. -/
theorem C6_refined_lag_safe (d : PitchDetector) (input : List ℚ) (sampleRate : ℚ)
    (h : peakPicking d.inputLength
      (normalizedSquareDifference d.inputLength input) ≠ []) :
    ∃ L, 1 ≤ L ∧ L ≤ d.inputLength - 1 ∧
      findPitch d input sampleRate =
        (JVal.num (sampleRate / (L : ℚ)),
         jget (normalizedSquareDifference d.inputLength input) L) := by
  obtain ⟨m, hbp, hm⟩ := findBestPeak_of_ne_nil h
    (fun m hm => (peakPicking_mem m hm).2.2)
  have hprop := peakPicking_mem m hm
  have hlen : (normalizedSquareDifference d.inputLength input).length = d.inputLength :=
    nsdf_length _ _
  have hb := @turningPointLoop_bounds
    (normalizedSquareDifference d.inputLength input) m
    hprop.1 (by rw [hlen]; exact hprop.2.1)
    (normalizedSquareDifference d.inputLength input).length 0
  have hT : findTurningPoint (normalizedSquareDifference d.inputLength input) m =
      turningPointLoop (normalizedSquareDifference d.inputLength input) m
        (normalizedSquareDifference d.inputLength input).length 0 := rfl
  rw [← hT] at hb
  rw [hlen] at hb
  refine ⟨findTurningPoint (normalizedSquareDifference d.inputLength input) m,
    hb.1, by omega, ?_⟩
  · simp only [findPitch, hbp]
    have hL0 : ((findTurningPoint (normalizedSquareDifference d.inputLength input) m : ℕ) : ℚ) ≠ 0 := by
      have h1 := hb.1
      exact_mod_cast Nat.cast_ne_zero.2 (by omega : findTurningPoint
        (normalizedSquareDifference d.inputLength input) m ≠ 0)
    simp [jdiv, hL0]

/-- Witness for `C6_refined_lag_safe` on the period-2 buffer `[1, −1, 1, −1]`:
the candidate list is `[2]`, the refined lag is 2, and the result is
`(8 / 2, nsdf[2]) = (4, 1)`. -/
theorem C6_refined_lag_safe_witness :
    (peakPicking (PitchDetector.new 4).inputLength
        (normalizedSquareDifference (PitchDetector.new 4).inputLength
          [(1 : ℚ), -1, 1, -1]) ≠ []) ∧
    ∃ L, 1 ≤ L ∧ L ≤ (PitchDetector.new 4).inputLength - 1 ∧
      findPitch (PitchDetector.new 4) [(1 : ℚ), -1, 1, -1] 8 =
        (JVal.num (8 / (L : ℚ)),
         jget (normalizedSquareDifference (PitchDetector.new 4).inputLength
           [(1 : ℚ), -1, 1, -1]) L) := by
  have hpk : peakPicking (PitchDetector.new 4).inputLength
      (normalizedSquareDifference (PitchDetector.new 4).inputLength
        [(1 : ℚ), -1, 1, -1]) = [2] := by
    norm_num [PitchDetector.new, peakPicking, peakLoop, normalizedSquareDifference,
      acfDivisorLoop, List.range_succ, jget, jgetQ, jdiv, jmul, jadd, jgt, jle, jlt]
  have hne : peakPicking (PitchDetector.new 4).inputLength
      (normalizedSquareDifference (PitchDetector.new 4).inputLength
        [(1 : ℚ), -1, 1, -1]) ≠ [] := by
    rw [hpk]
    simp
  exact ⟨hne, C6_refined_lag_safe _ _ _ hne⟩

/-- C8: for a buffer of the constructed length, the confidence returned by
`findPitch` is a rational in `[-1, 1]` (never NaN or an infinity). -/
theorem C8_confidence_in_range (d : PitchDetector) (input : List ℚ)
    (sampleRate : ℚ) (hlen : input.length = d.inputLength)
    (hrate : 0 < sampleRate) :
    ∃ q, (findPitch d input sampleRate).2 = JVal.num q ∧ -1 ≤ q ∧ q ≤ 1 := by
  cases hbp : findBestPeak
      (peakPicking d.inputLength (normalizedSquareDifference d.inputLength input))
      (normalizedSquareDifference d.inputLength input) with
  | none => exact ⟨0, by simp [findPitch, hbp], by norm_num, by norm_num⟩
  | some m =>
    have hprop := peakPicking_mem m (findBestPeak_some_mem hbp)
    have h2 : (findPitch d input sampleRate).2 =
        jget (normalizedSquareDifference d.inputLength input)
          (findTurningPoint (normalizedSquareDifference d.inputLength input) m) := by
      simp [findPitch, hbp]
    have hnn : jget (normalizedSquareDifference d.inputLength input)
        (findTurningPoint (normalizedSquareDifference d.inputLength input) m) ≠
          JVal.nan := by
      rcases @turningPointLoop_value
          (normalizedSquareDifference d.inputLength input) m
          (normalizedSquareDifference d.inputLength input).length 0 with heq | hne
      · rw [show findTurningPoint (normalizedSquareDifference d.inputLength input) m =
            turningPointLoop (normalizedSquareDifference d.inputLength input) m
              (normalizedSquareDifference d.inputLength input).length 0 from rfl, heq]
        exact (ne_nan_of_jgt hprop.2.2).1
      · exact hne
    rcases nsdf_entry_num_or_nan input d.inputLength
        (findTurningPoint (normalizedSquareDifference d.inputLength input) m) with
      hcase | ⟨q, hq, hb1, hb2⟩
    · exact absurd hcase hnn
    · exact ⟨q, by rw [h2, hq], hb1, hb2⟩

/-- Witness for `C8_confidence_in_range` on the all-zero two-sample buffer:
the confidence is 0, inside `[-1, 1]`. -/
theorem C8_confidence_in_range_witness :
    ([(0 : ℚ), 0].length = (PitchDetector.new 2).inputLength ∧ (0 : ℚ) < 1) ∧
    ∃ q, (findPitch (PitchDetector.new 2) [(0 : ℚ), 0] 1).2 = JVal.num q ∧
      -1 ≤ q ∧ q ≤ 1 :=
  ⟨⟨by decide, by norm_num⟩,
   C8_confidence_in_range _ _ _ (by decide) (by norm_num)⟩

/-! ### `findBestPeak` is first-maximum selection -/

/-- The `findBestPeak` fold agrees with `List.argAux`-style first-maximum
selection, for real-valued similarity arrays and in-range candidates. -/
theorem bestFold_eq_argAux (l : List ℚ) :
    ∀ (ps : List ℕ) (o : Option ℕ), (∀ m ∈ ps, m < l.length) →
      (∀ c, o = some c → c < l.length) →
      (ps.foldl (bestStep (l.map JVal.num))
        (match o with
         | none => ((.inf true : JVal), (none : Option ℕ))
         | some c => (JVal.num (sampleAt l c), some c))).2 =
      ps.foldl (List.argAux fun b c => sampleAt l c < sampleAt l b) o := by
  intro ps
  induction ps with
  | nil => intro o _ _; cases o <;> rfl
  | cons p ps ih =>
    intro o hps ho
    have hp : p < l.length := hps p (List.mem_cons_self p ps)
    have htail : ∀ m ∈ ps, m < l.length := fun m hm => hps m (List.mem_cons_of_mem p hm)
    cases o with
    | none =>
      rw [List.foldl_cons, List.foldl_cons]
      have hstep : bestStep (l.map JVal.num) ((.inf true : JVal), (none : Option ℕ)) p =
          (JVal.num (sampleAt l p), some p) := by
        simp [bestStep, jget_map_num_of_lt hp, jgt, jlt]
      rw [hstep, show List.argAux (fun b c => sampleAt l c < sampleAt l b) none p =
        some p from rfl]
      exact ih (some p) htail fun c hc => by injection hc with h; exact h ▸ hp
    | some c =>
      have hc : c < l.length := ho c rfl
      rw [List.foldl_cons, List.foldl_cons]
      by_cases hlt : sampleAt l c < sampleAt l p
      · have hstep : bestStep (l.map JVal.num) (JVal.num (sampleAt l c), some c) p =
            (JVal.num (sampleAt l p), some p) := by
          simp [bestStep, jget_map_num_of_lt hp, jgt, jlt, hlt]
        have harg : List.argAux (fun b c => sampleAt l c < sampleAt l b) (some c) p =
            some p := by
          simp [List.argAux, hlt]
        rw [hstep, harg]
        exact ih (some p) htail fun c' hc' => by injection hc' with h; exact h ▸ hp
      · have hstep : bestStep (l.map JVal.num) (JVal.num (sampleAt l c), some c) p =
            (JVal.num (sampleAt l c), some c) := by
          simp [bestStep, jget_map_num_of_lt hp, jgt, jlt, hlt]
        have harg : List.argAux (fun b c => sampleAt l c < sampleAt l b) (some c) p =
            some c := by
          simp [List.argAux, hlt]
        rw [hstep, harg]
        exact ih (some c) htail fun c' hc' => by injection hc' with h; exact h ▸ hc

/-- `findBestPeak` over a real-valued similarity array is exactly
`List.argmax` of the similarity value over the candidate list. -/
theorem findBestPeak_eq_argmax (l : List ℚ) (ps : List ℕ)
    (hps : ∀ m ∈ ps, m < l.length) :
    findBestPeak ps (l.map JVal.num) = ps.argmax (sampleAt l) := by
  rw [findBestPeak_eq_fold, List.argmax]
  exact bestFold_eq_argAux l ps none hps (fun c hc => by cases hc)

/-- C10: with real-valued similarity values at in-range candidate lags,
`findBestPeak` returns `null` exactly for the empty candidate list, and
otherwise the first candidate attaining the maximum value; on a strictly
increasing candidate list (as produced by `peakPicking`) ties therefore go
to the smaller lag. -/
theorem C10_findBestPeak_first_max (l : List ℚ) (ps : List ℕ)
    (hps : ∀ m ∈ ps, m < l.length) :
    (findBestPeak ps (l.map JVal.num) = none ↔ ps = []) ∧
    (∀ m, findBestPeak ps (l.map JVal.num) = some m ↔
      m ∈ ps ∧ (∀ k ∈ ps, sampleAt l k ≤ sampleAt l m) ∧
        ∀ k ∈ ps, sampleAt l m ≤ sampleAt l k → ps.indexOf m ≤ ps.indexOf k) ∧
    (∀ m, findBestPeak ps (l.map JVal.num) = some m → List.Chain' (· < ·) ps →
      ∀ k ∈ ps, sampleAt l m ≤ sampleAt l k → m ≤ k) := by
  rw [findBestPeak_eq_argmax l ps hps]
  refine ⟨List.argmax_eq_none, fun m => ?_, fun m hm hchain k hk hle => ?_⟩
  · rw [show (ps.argmax (sampleAt l) = some m) = (m ∈ ps.argmax (sampleAt l)) from rfl]
    exact List.mem_argmax_iff
  · have hidx := List.index_of_argmax hm hk hle
    have hmem : m ∈ ps := List.argmax_mem hm
    have hpw : List.Pairwise (· < ·) ps := List.chain'_iff_pairwise.1 hchain
    have him : ps.indexOf m < ps.length := List.indexOf_lt_length.2 hmem
    have hik : ps.indexOf k < ps.length := List.indexOf_lt_length.2 hk
    have hgm : ps.get ⟨ps.indexOf m, him⟩ = m := List.indexOf_get him
    have hgk : ps.get ⟨ps.indexOf k, hik⟩ = k := List.indexOf_get hik
    rcases Nat.lt_or_ge (ps.indexOf m) (ps.indexOf k) with hlt | hge
    · have := List.pairwise_iff_get.1 hpw ⟨ps.indexOf m, him⟩ ⟨ps.indexOf k, hik⟩ hlt
      rw [hgm, hgk] at this
      exact le_of_lt this
    · have hii : ps.indexOf m = ps.indexOf k := le_antisymm hidx hge
      have h2 : ps.get ⟨ps.indexOf m, him⟩ = ps.get ⟨ps.indexOf k, hik⟩ := by
        congr 1
        exact Fin.ext hii
      rw [hgm, hgk] at h2
      exact le_of_eq h2

/-- Witness for `C10_findBestPeak_first_max` with `l = [0, 5, 5]`,
`ps = [1, 2]`: the two candidates tie, and the first (lag 1) wins. -/
theorem C10_findBestPeak_first_max_witness :
    (∀ m ∈ [1, 2], m < [(0 : ℚ), 5, 5].length) ∧
    ((findBestPeak [1, 2] ([(0 : ℚ), 5, 5].map JVal.num) = none ↔ ([1, 2] : List ℕ) = []) ∧
     (∀ m, findBestPeak [1, 2] ([(0 : ℚ), 5, 5].map JVal.num) = some m ↔
       m ∈ [1, 2] ∧ (∀ k ∈ [1, 2], sampleAt [(0 : ℚ), 5, 5] k ≤ sampleAt [(0 : ℚ), 5, 5] m) ∧
         ∀ k ∈ [1, 2], sampleAt [(0 : ℚ), 5, 5] m ≤ sampleAt [(0 : ℚ), 5, 5] k →
           ([1, 2] : List ℕ).indexOf m ≤ ([1, 2] : List ℕ).indexOf k) ∧
     (∀ m, findBestPeak [1, 2] ([(0 : ℚ), 5, 5].map JVal.num) = some m →
       List.Chain' (· < ·) [1, 2] →
       ∀ k ∈ [1, 2], sampleAt [(0 : ℚ), 5, 5] m ≤ sampleAt [(0 : ℚ), 5, 5] k → m ≤ k)) :=
  ⟨by decide, C10_findBestPeak_first_max [(0 : ℚ), 5, 5] [1, 2] (by decide)⟩

/-! ### The turning-point search, compared with the claim's reading -/

/-- The turning-point search as the claim words it, for comparison with the
code: identical to `turningPointLoop` except that the search continues as
long as both `L − δ` and `L + δ` are valid indices — index 0 included
(`delta ≤ maxPosition` instead of the code's `delta < maxPosition`). -/
def claimTurningPointLoop (nsdf : List JVal) (maxPosition : ℕ) : ℕ → ℕ → ℕ
  | 0, _ => maxPosition
  | fuel + 1, delta =>
    if maxPosition + delta < nsdf.length ∧ delta ≤ maxPosition then
      if jgt (jget nsdf (maxPosition - delta)) (jget nsdf (maxPosition + delta)) then
        maxPosition - delta
      else if jlt (jget nsdf (maxPosition - delta)) (jget nsdf (maxPosition + delta)) then
        maxPosition + delta
      else claimTurningPointLoop nsdf maxPosition fuel (delta + 1)
    else maxPosition

/-- The claim's search from `δ = 0`, with enough fuel for every reachable
offset. -/
def claimFindTurningPoint (nsdf : List JVal) (maxPosition : ℕ) : ℕ :=
  claimTurningPointLoop nsdf maxPosition (nsdf.length + 1) 0

/-- C5 counterexample: on `nsdf = [5, 1, 1, 1, 0]` with selected lag `L = 2`,
the first differing offset is `δ = 2`, at the in-range indices 0 and 4, where
the left value 5 is strictly larger — the claim's search returns 0.  The code
stops one offset earlier (its guard `maxPosition - delta > 0` treats index 0
as out of reach) and returns `L = 2`. -/
theorem C5_counterexample :
    claimFindTurningPoint (([(5 : ℚ), 1, 1, 1, 0]).map JVal.num) 2 = 0 ∧
    findTurningPoint (([(5 : ℚ), 1, 1, 1, 0]).map JVal.num) 2 = 2 ∧
    (2 : ℕ) ≠ 0 := by
  refine ⟨?_, ?_, by decide⟩
  · norm_num [claimFindTurningPoint, claimTurningPointLoop, jget, jgt, jlt]
  · norm_num [findTurningPoint, turningPointLoop, jget, jgt, jlt]

/-- How the code's search exits, on a real-valued similarity array: there is
an offset `δ` such that at every smaller offset both compared entries are in
the loop's reach and equal, and at `δ` either (a) the loop's guard fails —
`L + δ` past the end or `L − δ` at or below index 0 — and the result is `L`
itself, or (b) the two entries differ and the result is whichever side is
strictly larger. -/
theorem turningPointLoop_search (l : List ℚ) (L : ℕ) :
    ∀ fuel delta, l.length ≤ fuel + delta →
      ∃ δ : ℕ, delta ≤ δ ∧
        (∀ d, delta ≤ d → d < δ → (L + d < l.length ∧ d < L) ∧
          sampleAt l (L - d) = sampleAt l (L + d)) ∧
        ((¬(L + δ < l.length ∧ δ < L) ∧
            turningPointLoop (l.map JVal.num) L fuel delta = L) ∨
         ((L + δ < l.length ∧ δ < L) ∧
           ((sampleAt l (L + δ) < sampleAt l (L - δ) ∧
              turningPointLoop (l.map JVal.num) L fuel delta = L - δ) ∨
            (sampleAt l (L - δ) < sampleAt l (L + δ) ∧
              turningPointLoop (l.map JVal.num) L fuel delta = L + δ)))) := by
  intro fuel
  induction fuel with
  | zero =>
    intro delta hfuel
    refine ⟨delta, le_refl delta, fun d h1 h2 => absurd (lt_of_le_of_lt h1 h2) (lt_irrefl delta), ?_⟩
    exact Or.inl ⟨by omega, rfl⟩
  | succ fuel ih =>
    intro delta hfuel
    by_cases hguard : L + delta < l.length ∧ delta < L
    · have hlo : L - delta < l.length := by omega
      have hhi : L + delta < l.length := hguard.1
      have hguard' : L + delta < (l.map JVal.num).length ∧ delta < L := by
        simpa using hguard
      have hunfold : turningPointLoop (l.map JVal.num) L (fuel + 1) delta =
          if decide (sampleAt l (L + delta) < sampleAt l (L - delta)) = true then L - delta
          else if decide (sampleAt l (L - delta) < sampleAt l (L + delta)) = true then
            L + delta
          else turningPointLoop (l.map JVal.num) L fuel (delta + 1) := by
        simp only [turningPointLoop, if_pos hguard',
          jget_map_num_of_lt hlo, jget_map_num_of_lt hhi, jgt, jlt]
      rcases lt_trichotomy (sampleAt l (L - delta)) (sampleAt l (L + delta)) with
        hc | hc | hc
      · refine ⟨delta, le_refl delta,
          fun d h1 h2 => absurd (lt_of_le_of_lt h1 h2) (lt_irrefl delta),
          Or.inr ⟨hguard, Or.inr ⟨hc, ?_⟩⟩⟩
        rw [hunfold, if_neg (by simp [not_lt.2 (le_of_lt hc)]),
          if_pos (by simp [hc])]
      · obtain ⟨δ, hδ1, hδ2, hδ3⟩ := ih (delta + 1) (by omega)
        have hres : turningPointLoop (l.map JVal.num) L (fuel + 1) delta =
            turningPointLoop (l.map JVal.num) L fuel (delta + 1) := by
          rw [hunfold, if_neg (by simp [hc]), if_neg (by simp [hc])]
        refine ⟨δ, by omega, ?_, by rw [hres]; exact hδ3⟩
        intro d h1 h2
        rcases eq_or_lt_of_le h1 with rfl | h1'
        · exact ⟨⟨hhi, hguard.2⟩, hc⟩
        · exact hδ2 d h1' h2
      · refine ⟨delta, le_refl delta,
          fun d h1 h2 => absurd (lt_of_le_of_lt h1 h2) (lt_irrefl delta),
          Or.inr ⟨hguard, Or.inl ⟨hc, ?_⟩⟩⟩
        rw [hunfold, if_pos (by simp [hc])]
    · refine ⟨delta, le_refl delta,
        fun d h1 h2 => absurd (lt_of_le_of_lt h1 h2) (lt_irrefl delta), Or.inl ⟨hguard, ?_⟩⟩
      simp only [turningPointLoop]
      rw [if_neg (by simpa using hguard)]

/-- C5 (amended): for every real-valued similarity array and start lag `L`,
`findTurningPoint` performs the symmetric outward search — at the first
offset `δ` where the two compared entries differ it returns whichever of
`L−δ` / `L+δ` holds the strictly larger value — but its reach excludes index
0 on the left: the search stops, returning `L` itself, as soon as `L−δ`
would reach 0 (not only past it) or `L+δ` would reach the array's end. -/
theorem C5_turning_point_search (l : List ℚ) (L : ℕ) :
    ∃ δ : ℕ,
      (∀ d, d < δ → (L + d < l.length ∧ d < L) ∧
        sampleAt l (L - d) = sampleAt l (L + d)) ∧
      ((¬(L + δ < l.length ∧ δ < L) ∧ findTurningPoint (l.map JVal.num) L = L) ∨
       ((L + δ < l.length ∧ δ < L) ∧
         ((sampleAt l (L + δ) < sampleAt l (L - δ) ∧
            findTurningPoint (l.map JVal.num) L = L - δ) ∨
          (sampleAt l (L - δ) < sampleAt l (L + δ) ∧
            findTurningPoint (l.map JVal.num) L = L + δ)))) := by
  obtain ⟨δ, _, h2, h3⟩ :=
    turningPointLoop_search l L (l.map JVal.num).length 0 (by simp)
  exact ⟨δ, fun d hd => h2 d (Nat.zero_le d) hd, h3⟩

/-! ### Reference description of the peak-picking scan

`peaksRef` re-states the scan declaratively, by splitting the array into
runs: skip non-positive values; at a positive value, take the whole
contiguous positive run, locate the first position attaining its maximum
(`firstMaxAux`), and record that position — but only if the run is
terminated by a later non-positive value before the end of the array (a run
still open when the array ends contributes nothing), and only if the
recorded position is not lag 0.  `peakPicking` is proved equal to it below. -/

/-- First position attaining the maximum: `x` at absolute position-holder
`idx` is the best so far; `p` is the absolute position of the list head.
Strict improvement moves the holder, so ties keep the earliest. -/
def firstMaxAux (x : ℚ) (idx : ℕ) : List ℚ → ℕ → ℕ
  | [], _ => idx
  | y :: ys, p => if x < y then firstMaxAux y p ys (p + 1) else firstMaxAux x idx ys (p + 1)

/-- Strict positivity as a Boolean predicate on sample values. -/
def posQ : ℚ → Bool := fun y => decide (0 < y)

/-- Candidate positions, one per terminated positive run, described by
run-splitting (`idx` is the absolute position of the list head). -/
def peaksRef : List ℚ → ℕ → List ℕ
  | [], _ => []
  | x :: xs, idx =>
    if x ≤ 0 then peaksRef xs (idx + 1)
    else
      let run := xs.takeWhile posQ
      let m := firstMaxAux x idx run (idx + 1)
      match h : xs.dropWhile posQ with
      | [] => []
      | _ :: rest =>
        (if 0 < m then [m] else []) ++ peaksRef rest (idx + 1 + run.length + 1)
termination_by l => l.length
decreasing_by
  all_goals simp_wf
  have h1 : (List.dropWhile posQ ys).length ≤ ys.length :=
    (List.dropWhile_sublist _).length_le
  rw [h] at h1
  simp at h1
  omega

/-- The result of `firstMaxAux` is the initial holder or a position of the
scanned segment. -/
theorem firstMaxAux_cases :
    ∀ (ys : List ℚ) (x : ℚ) (idx p : ℕ),
      firstMaxAux x idx ys p = idx ∨
        (p ≤ firstMaxAux x idx ys p ∧ firstMaxAux x idx ys p < p + ys.length) := by
  intro ys
  induction ys with
  | nil => intro x idx p; exact Or.inl rfl
  | cons y ys ih =>
    intro x idx p
    simp only [firstMaxAux]
    split_ifs with hxy
    · rcases ih y p (p + 1) with h | h
      · rw [h]
        exact Or.inr ⟨le_refl p, by simp⟩
      · exact Or.inr ⟨by omega, by simp; omega⟩
    · rcases ih x idx (p + 1) with h | h
      · exact Or.inl h
      · exact Or.inr ⟨by omega, by simp; omega⟩

theorem peaksRef_nil (idx : ℕ) : peaksRef [] idx = [] := by
  simp [peaksRef]

theorem peaksRef_cons_nonpos {x : ℚ} (xs : List ℚ) (idx : ℕ) (hx : x ≤ 0) :
    peaksRef (x :: xs) idx = peaksRef xs (idx + 1) := by
  simp [peaksRef, hx]

theorem peaksRef_cons_pos {x : ℚ} (xs : List ℚ) (idx : ℕ) (hx : 0 < x) :
    peaksRef (x :: xs) idx =
      (match xs.dropWhile posQ with
       | [] => []
       | _ :: rest =>
         (if 0 < firstMaxAux x idx (xs.takeWhile posQ) (idx + 1) then
            [firstMaxAux x idx (xs.takeWhile posQ) (idx + 1)]
          else []) ++
         peaksRef rest (idx + 1 + (xs.takeWhile posQ).length + 1)) := by
  rw [peaksRef]
  simp only [not_le.2 hx, if_false]
  cases hd : List.dropWhile posQ xs <;> rfl

/-- The scan's accumulator is append-only. -/
theorem peakLoop_acc (nsdf : List JVal) :
    ∀ (k pos : ℕ) (acc : List ℕ) (cur : ℕ) (b : Bool),
      peakLoop nsdf k pos acc cur b = acc ++ peakLoop nsdf k pos [] cur b := by
  intro k
  induction k with
  | zero => intro pos acc cur b; simp [peakLoop]
  | succ k ih =>
    intro pos acc cur b
    simp only [peakLoop]
    split_ifs with h1 h2 hc h3
    · exact ih (pos + 1) acc pos true
    · rw [ih (pos + 1) (acc ++ [cur]) cur false, ih (pos + 1) ([] ++ [cur]) cur false]
      simp
    · exact ih (pos + 1) acc cur false
    · exact ih (pos + 1) acc pos b
    · exact ih (pos + 1) acc cur b

/-- The scan loop, started at `pos` with `k` = remaining positions, equals
the run-splitting reference on the suffix `l.drop pos`: in the non-tracking
state it is exactly `peaksRef`; in the tracking state (current best holder
`cur`) it finishes the open run with `firstMaxAux` and records the result
only if the run is terminated before the end and the holder is positive. -/
theorem peakLoop_spec (l : List ℚ) :
    ∀ (k pos cur : ℕ) (b : Bool), pos + k = l.length → (b = true → cur < l.length) →
      peakLoop (l.map JVal.num) k pos [] cur b =
        (if b then
          (match (l.drop pos).dropWhile posQ with
           | [] => []
           | _ :: rest =>
             (if 0 < firstMaxAux (sampleAt l cur) cur ((l.drop pos).takeWhile posQ) pos then
                [firstMaxAux (sampleAt l cur) cur ((l.drop pos).takeWhile posQ) pos]
              else []) ++
             peaksRef rest (pos + ((l.drop pos).takeWhile posQ).length + 1))
         else peaksRef (l.drop pos) pos) := by
  intro k
  induction k with
  | zero =>
    intro pos cur b hlen hcur
    have hpos : pos = l.length := by omega
    subst hpos
    cases b <;> simp [peakLoop, List.drop_length, peaksRef_nil]
  | succ k ih =>
    intro pos cur b hlen hcur
    have hpos : pos < l.length := by omega
    have hdrop : l.drop pos = sampleAt l pos :: l.drop (pos + 1) := by
      rw [List.drop_eq_getElem_cons hpos]
      simp [sampleAt, List.getD_eq_getElem?_getD, List.getElem?_eq_getElem hpos]
    have hjget : jget (l.map JVal.num) pos = JVal.num (sampleAt l pos) :=
      jget_map_num_of_lt hpos
    rcases le_or_lt (sampleAt l pos) 0 with hv | hv
    · -- the value at `pos` is non-positive
      have hpq : posQ (sampleAt l pos) = false :=
        decide_eq_false_iff_not.2 (not_lt.2 hv)
      have hc1 : (jgt (jget (l.map JVal.num) pos) (JVal.num 0) && !b) = false := by
        rw [hjget, jgt_num_num, decide_eq_false_iff_not.2 (not_lt.2 hv)]
        simp
      have hc2 : (jle (jget (l.map JVal.num) pos) (JVal.num 0) && b) = b := by
        rw [hjget, jle_num_num, decide_eq_true hv]
        simp
      cases b with
      | false =>
        have hstep : peakLoop (l.map JVal.num) (k + 1) pos [] cur false =
            peakLoop (l.map JVal.num) k (pos + 1) [] cur false := by
          simp only [peakLoop, hc1, hc2]
          simp
        rw [hstep, ih (pos + 1) cur false (by omega) (by simp)]
        simp only [if_neg (by simp : ¬ (false = true))]
        rw [hdrop, peaksRef_cons_nonpos _ _ hv]
      | true =>
        have hstep : peakLoop (l.map JVal.num) (k + 1) pos [] cur true =
            (if 0 < cur then [cur] else []) ++
              peakLoop (l.map JVal.num) k (pos + 1) [] cur false := by
          simp only [peakLoop, hc1, hc2]
          simp only [Bool.false_eq_true, if_false, if_true]
          rw [peakLoop_acc]
          by_cases hcc : 0 < cur <;> simp [hcc]
        rw [hstep, ih (pos + 1) cur false (by omega) (by simp)]
        simp only [if_pos rfl]
        rw [hdrop, List.dropWhile_cons, List.takeWhile_cons, hpq]
        simp only [Bool.false_eq_true, if_false]
        simp [firstMaxAux]
    · -- the value at `pos` is positive
      have hpq : posQ (sampleAt l pos) = true := decide_eq_true hv
      have hc1 : (jgt (jget (l.map JVal.num) pos) (JVal.num 0) && !b) = !b := by
        rw [hjget, jgt_num_num, decide_eq_true hv]
        simp
      have hc2 : (jle (jget (l.map JVal.num) pos) (JVal.num 0) && b) = false := by
        rw [hjget, jle_num_num, decide_eq_false_iff_not.2 (not_le.2 hv)]
        simp
      cases b with
      | false =>
        have hstep : peakLoop (l.map JVal.num) (k + 1) pos [] cur false =
            peakLoop (l.map JVal.num) k (pos + 1) [] pos true := by
          simp only [peakLoop, hc1, hc2]
          simp
        rw [hstep, ih (pos + 1) pos true (by omega) (fun _ => hpos)]
        simp only [if_pos rfl, if_neg (by simp : ¬ (false = true))]
        rw [hdrop, peaksRef_cons_pos _ _ hv]
        rfl
      | true =>
        have hcur' : cur < l.length := hcur rfl
        have hc3 : jgt (jget (l.map JVal.num) pos) (jget (l.map JVal.num) cur) =
            decide (sampleAt l cur < sampleAt l pos) := by
          rw [hjget, jget_map_num_of_lt hcur', jgt_num_num]
        simp only [if_pos rfl]
        rw [hdrop, List.dropWhile_cons, List.takeWhile_cons, hpq]
        simp only [if_true]
        by_cases hlt : sampleAt l cur < sampleAt l pos
        · have hstep : peakLoop (l.map JVal.num) (k + 1) pos [] cur true =
              peakLoop (l.map JVal.num) k (pos + 1) [] pos true := by
            simp only [peakLoop, hc1, hc2, hc3, decide_eq_true hlt]
            simp
          rw [hstep, ih (pos + 1) pos true (by omega) (fun _ => hpos)]
          simp only [if_pos rfl]
          cases hrest : List.dropWhile posQ (l.drop (pos + 1)) with
          | nil => rfl
          | cons d rest =>
            simp only [firstMaxAux, if_pos hlt, List.length_cons]
            have harith : pos + (((l.drop (pos + 1)).takeWhile posQ).length + 1) + 1 =
                pos + 1 + ((l.drop (pos + 1)).takeWhile posQ).length + 1 := by omega
            rw [harith]
            exact if_pos trivial
        · have hstep : peakLoop (l.map JVal.num) (k + 1) pos [] cur true =
              peakLoop (l.map JVal.num) k (pos + 1) [] cur true := by
            simp only [peakLoop, hc1, hc2, hc3,
              decide_eq_false_iff_not.2 hlt]
            simp
          rw [hstep, ih (pos + 1) cur true (by omega) (fun _ => hcur')]
          simp only [if_pos rfl]
          cases hrest : List.dropWhile posQ (l.drop (pos + 1)) with
          | nil => rfl
          | cons d rest =>
            simp only [firstMaxAux, if_neg hlt, List.length_cons]
            have harith : pos + (((l.drop (pos + 1)).takeWhile posQ).length + 1) + 1 =
                pos + 1 + ((l.drop (pos + 1)).takeWhile posQ).length + 1 := by omega
            rw [harith]
            exact if_pos trivial

/-- Every recorded candidate is at or after the scan start and positive. -/
theorem peaksRef_lb :
    ∀ (n : ℕ) (l : List ℚ), l.length ≤ n →
      ∀ (idx m : ℕ), m ∈ peaksRef l idx → idx ≤ m ∧ 0 < m := by
  intro n
  induction n with
  | zero =>
    intro l hl idx m hm
    obtain rfl : l = [] := List.length_eq_zero.1 (Nat.le_zero.1 hl)
    rw [peaksRef_nil] at hm
    exact absurd hm (List.not_mem_nil m)
  | succ n ih =>
    intro l hl idx m hm
    cases l with
    | nil => rw [peaksRef_nil] at hm; exact absurd hm (List.not_mem_nil m)
    | cons x xs =>
      have hxs : xs.length ≤ n := by
        simp only [List.length_cons] at hl
        omega
      by_cases hx : x ≤ 0
      · rw [peaksRef_cons_nonpos _ _ hx] at hm
        have h := ih xs hxs (idx + 1) m hm
        exact ⟨by omega, h.2⟩
      · rw [peaksRef_cons_pos _ _ (not_le.1 hx)] at hm
        cases hrest : xs.dropWhile posQ with
        | nil => rw [hrest] at hm; simp at hm
        | cons d rest =>
          rw [hrest] at hm
          rcases List.mem_append.1 hm with h | h
          · by_cases hM : 0 < firstMaxAux x idx (xs.takeWhile posQ) (idx + 1)
            · rw [if_pos hM] at h
              obtain rfl : m = firstMaxAux x idx (xs.takeWhile posQ) (idx + 1) :=
                List.mem_singleton.1 h
              rcases firstMaxAux_cases (xs.takeWhile posQ) x idx (idx + 1) with hc | hc
              · exact ⟨le_of_eq hc.symm, hM⟩
              · exact ⟨by omega, hM⟩
            · rw [if_neg hM] at h
              simp at h
          · have hrl : rest.length ≤ n := by
              have h1 : (xs.dropWhile posQ).length ≤ xs.length :=
                (List.dropWhile_sublist _).length_le
              rw [hrest] at h1
              simp only [List.length_cons] at h1
              omega
            have h2 := ih rest hrl _ m h
            exact ⟨by omega, h2.2⟩

/-- The recorded candidates are strictly increasing. -/
theorem peaksRef_chain :
    ∀ (n : ℕ) (l : List ℚ), l.length ≤ n →
      ∀ idx, List.Chain' (· < ·) (peaksRef l idx) := by
  intro n
  induction n with
  | zero =>
    intro l hl idx
    obtain rfl : l = [] := List.length_eq_zero.1 (Nat.le_zero.1 hl)
    rw [peaksRef_nil]
    simp
  | succ n ih =>
    intro l hl idx
    cases l with
    | nil => rw [peaksRef_nil]; simp
    | cons x xs =>
      have hxs : xs.length ≤ n := by
        simp only [List.length_cons] at hl
        omega
      by_cases hx : x ≤ 0
      · rw [peaksRef_cons_nonpos _ _ hx]
        exact ih xs hxs (idx + 1)
      · rw [peaksRef_cons_pos _ _ (not_le.1 hx)]
        cases hrest : xs.dropWhile posQ with
        | nil => simp
        | cons d rest =>
          have hrl : rest.length ≤ n := by
            have h1 : (xs.dropWhile posQ).length ≤ xs.length :=
              (List.dropWhile_sublist _).length_le
            rw [hrest] at h1
            simp only [List.length_cons] at h1
            omega
          refine List.chain'_append.2 ⟨?_, ih rest hrl _, ?_⟩
          · by_cases hM : 0 < firstMaxAux x idx (xs.takeWhile posQ) (idx + 1) <;>
              simp [hM]
          · intro a ha b hb
            by_cases hM : 0 < firstMaxAux x idx (xs.takeWhile posQ) (idx + 1)
            · rw [if_pos hM] at ha
              simp only [List.getLast?_singleton, Option.mem_def, Option.some.injEq] at ha
              subst ha
              have hbm : b ∈ peaksRef rest (idx + 1 + (xs.takeWhile posQ).length + 1) :=
                List.mem_of_mem_head? hb
              have hblb := (peaksRef_lb n rest hrl _ b hbm).1
              rcases firstMaxAux_cases (xs.takeWhile posQ) x idx (idx + 1) with hc | hc
              · omega
              · omega
            · rw [if_neg hM] at ha
              simp at ha

/-- C4 (amended): on a real-valued similarity array, `peakPicking` records,
in strictly increasing order, one strictly positive candidate per contiguous
positive run — the first lag attaining the run's maximum — **except** that a
run still open when the array ends is never recorded (recording happens only
when a later non-positive value terminates the run), and a run whose maximum
sits at lag 0 is dropped.  Formally the scan equals the run-splitting
reference `peaksRef`, and its output is strictly increasing and positive. -/
theorem C4_peakPicking_runs (l : List ℚ) :
    peakPicking l.length (l.map JVal.num) = peaksRef l 0 ∧
    List.Chain' (· < ·) (peakPicking l.length (l.map JVal.num)) ∧
    ∀ m ∈ peakPicking l.length (l.map JVal.num), 0 < m := by
  have he : peakPicking l.length (l.map JVal.num) = peaksRef l 0 := by
    have h := peakLoop_spec l l.length 0 0 false (by omega) (by simp)
    simpa [peakPicking] using h
  refine ⟨he, ?_, ?_⟩
  · rw [he]
    exact peaksRef_chain l.length l le_rfl 0
  · rw [he]
    intro m hm
    exact (peaksRef_lb l.length l le_rfl 0 m hm).2

/-- C4 counterexample: `nsdf = [0, 1]` has a positive run `{1}` whose (first)
maximum is at lag 1, so the claim demands the candidate list `[1]`; but the
run reaches the end of the array without a terminating non-positive value,
so the code's scan never pushes it and returns `[]`. -/
theorem C4_counterexample :
    peakPicking 2 [JVal.num 0, JVal.num 1] = [] ∧ ([] : List ℕ) ≠ [1] := by
  constructor
  · norm_num [peakPicking, peakLoop, jget, jgt, jle, jlt]
  · simp

end PichMatcher
